import Mathlib

/-!
Verification of the libragen chunking, storage and hybrid-retrieval engine.

Each component of the system is shallowly embedded as executable Lean
definitions.  The `CodeChunker`, `SearchTool` and `TimeEstimate` sections are
translated directly from the TypeScript sources
(`packages/core/src/code-chunker.ts`, the MCP `libragen_search` tool, and the
CLI `time-estimate` module).  The Chunk Splitter, Storage Engine / context
expansion, Migration Runner and Hybrid Searcher are not present in the
source tree (only their documentation and call sites are), so those are
modelled from the specification, as their doc comments state.
-/

namespace CodeChunker

/-- Languages supported for AST-aware chunking (source `CodeChunkerLanguage`). -/
inductive CodeChunkerLanguage where
  | typescript
  | javascript
  | python
  | rust
  | go
  | java
deriving DecidableEq

/-- Context mode for AST chunking (source `ContextMode`). -/
inductive ContextMode where
  | none
  | minimal
  | full
deriving DecidableEq

/-- Resolved configuration of the `CodeChunker` (source `Required<CodeChunkerConfig>`). -/
structure CodeChunkerConfig where
  maxChunkSize : Nat
  contextMode : ContextMode
  overlapLines : Nat

/-- Source constant `DEFAULT_MAX_CHUNK_SIZE`. -/
def DEFAULT_MAX_CHUNK_SIZE : Nat := 1500

/-- Source constant `DEFAULT_CONTEXT_MODE`. -/
def DEFAULT_CONTEXT_MODE : ContextMode := ContextMode.full

/-- Source constant `DEFAULT_OVERLAP_LINES`. -/
def DEFAULT_OVERLAP_LINES : Nat := 0

/-- The configuration produced by `new CodeChunker()` with no arguments:
every field falls back to its default. -/
def defaultConfig : CodeChunkerConfig :=
  { maxChunkSize := DEFAULT_MAX_CHUNK_SIZE
  , contextMode := DEFAULT_CONTEXT_MODE
  , overlapLines := DEFAULT_OVERLAP_LINES }

/-- Source constant `EXTENSION_TO_LANGUAGE`: map of file extensions to
code-chunk supported languages, embedded as an association list. -/
def EXTENSION_TO_LANGUAGE : List (String × CodeChunkerLanguage) :=
  [ (".ts", CodeChunkerLanguage.typescript)
  , (".tsx", CodeChunkerLanguage.typescript)
  , (".mts", CodeChunkerLanguage.typescript)
  , (".cts", CodeChunkerLanguage.typescript)
  , (".js", CodeChunkerLanguage.javascript)
  , (".jsx", CodeChunkerLanguage.javascript)
  , (".mjs", CodeChunkerLanguage.javascript)
  , (".cjs", CodeChunkerLanguage.javascript)
  , (".py", CodeChunkerLanguage.python)
  , (".pyi", CodeChunkerLanguage.python)
  , (".rs", CodeChunkerLanguage.rust)
  , (".go", CodeChunkerLanguage.go)
  , (".java", CodeChunkerLanguage.java) ]

/-- Node's `path.extname`: the suffix of the basename starting at its last
dot, or the empty string when the basename has no dot or only a leading dot. -/
def extname (filePath : String) : String :=
  let base := (filePath.toList.reverse.takeWhile (fun c => c ≠ '/')).reverse
  let tail := base.reverse.takeWhile (fun c => c ≠ '.')
  if base.length - 1 ≤ tail.length then ""
  else (base.drop (base.length - 1 - tail.length)).asString

/-- JavaScript's `String.prototype.toLowerCase`, restricted to the ASCII
characters that occur in file extensions. -/
def toLowerAscii (s : String) : String :=
  (s.toList.map Char.toLower).asString

/-- Source `CodeChunker.detectLanguage`: look the lower-cased extension up in
`EXTENSION_TO_LANGUAGE` (`EXTENSION_TO_LANGUAGE[ext] ?? null`). -/
def detectLanguage (filePath : String) : Option CodeChunkerLanguage :=
  EXTENSION_TO_LANGUAGE.lookup (toLowerAscii (extname filePath))

/-- Source `CodeChunker.isSupported`: `ext in EXTENSION_TO_LANGUAGE`,
i.e. the lower-cased extension has an entry in the association list. -/
def isSupported (filePath : String) : Bool :=
  (EXTENSION_TO_LANGUAGE.lookup (toLowerAscii (extname filePath))).isSome

/-- A 0-indexed line range as delivered by the external `code-chunk`
capability.  The field `stop` embeds the source's `lineRange.end`. -/
structure LineRange where
  start : Nat
  stop : Nat
deriving DecidableEq

/-- One scope-chain entry of the external capability's chunk context. -/
structure ScopeItem where
  name : String
  type : String
  signature : String
deriving DecidableEq

/-- One defined-entity entry of the external chunk context.  The field
`isIncomplete` embeds the source's `isPartial` flag. -/
structure EntityItem where
  name : String
  type : String
  signature : String
  docstring : Option String
  lineRange : Option LineRange
  isIncomplete : Bool
deriving DecidableEq

/-- One sibling-entity entry of the external chunk context. -/
structure SiblingItem where
  name : String
  type : String
  position : String
  distance : Nat
deriving DecidableEq

/-- One import entry of the external chunk context. -/
structure ImportItem where
  name : String
  source : String
  isDefault : Bool
  isNamespace : Bool
deriving DecidableEq

/-- Semantic context attached to a chunk (source `CodeContext`). -/
structure CodeContext where
  scope : List ScopeItem
  entities : List EntityItem
  siblings : List SiblingItem
  imports : List ImportItem
deriving DecidableEq

/-- A raw chunk as returned by the external `code-chunk` capability
(source type `CodeChunkChunk`). -/
structure CodeChunkChunk where
  text : String
  contextualizedText : String
  lineRange : LineRange
  context : CodeContext
deriving DecidableEq

/-- Options forwarded to the external capability (source `CodeChunkOptions`). -/
structure ChunkOptions where
  maxChunkSize : Nat
  contextMode : ContextMode
  overlapLines : Nat
  language : CodeChunkerLanguage

/-- Positional and semantic metadata of a libragen chunk (source
`ChunkMetadata` as populated by `code-chunker.ts`). -/
structure ChunkMetadata where
  sourceFile : String
  startLine : Option Nat
  endLine : Option Nat
  language : Option CodeChunkerLanguage
  codeContext : Option CodeContext
deriving DecidableEq

/-- A libragen chunk record (source `Chunk`). -/
structure Chunk where
  content : String
  embeddingContent : Option String
  metadata : ChunkMetadata
deriving DecidableEq

/-- The external AST capability: `codeChunk(filePath, content, options)`.
It may fail (the TypeScript call may throw), embedded as `Except` with the
thrown message. -/
def AstCapability : Type :=
  String → String → ChunkOptions → Except String (List CodeChunkChunk)

/-- The two failure modes of `chunkText`: the source throws an
`Unsupported file type` error before calling the capability, and wraps any
capability failure in an `AST chunking failed` error. -/
inductive ChunkError where
  | unsupportedFileType (filePath : String)
  | parseFailure (filePath : String) (message : String)
deriving DecidableEq

/-- Source `CodeChunker._mapChunk`: map a raw `code-chunk` chunk to a
libragen chunk, rebuilding the context records field by field and converting
the 0-indexed line range to the engine's 1-indexed convention. -/
def _mapChunk (chunk : CodeChunkChunk) (filePath : String)
    (language : CodeChunkerLanguage) : Chunk :=
  let codeContext : CodeContext :=
    { scope := chunk.context.scope.map (fun s =>
        { name := s.name, type := s.type, signature := s.signature })
    , entities := chunk.context.entities.map (fun e =>
        { name := e.name
        , type := e.type
        , signature := e.signature
        , docstring := e.docstring
        , lineRange := e.lineRange.map (fun r => { start := r.start, stop := r.stop })
        , isIncomplete := e.isIncomplete })
    , siblings := chunk.context.siblings.map (fun s =>
        { name := s.name, type := s.type, position := s.position, distance := s.distance })
    , imports := chunk.context.imports.map (fun i =>
        { name := i.name, source := i.source, isDefault := i.isDefault
        , isNamespace := i.isNamespace }) }
  { content := chunk.text
  , embeddingContent := some chunk.contextualizedText
  , metadata :=
    { sourceFile := filePath
    , startLine := some (chunk.lineRange.start + 1)
    , endLine := some (chunk.lineRange.stop + 1)
    , language := some language
    , codeContext := some codeContext } }

/-- Source `CodeChunker.chunkText`: detect the language from the file path,
fail with the unsupported-file-type error when detection fails, otherwise
invoke the external capability and either map its chunks or wrap its failure. -/
def chunkText (cfg : CodeChunkerConfig) (codeChunk : AstCapability)
    (content filePath : String) : Except ChunkError (List Chunk) :=
  match detectLanguage filePath with
  | none => Except.error (ChunkError.unsupportedFileType filePath)
  | some language =>
    match codeChunk filePath content
        { maxChunkSize := cfg.maxChunkSize
        , contextMode := cfg.contextMode
        , overlapLines := cfg.overlapLines
        , language := language } with
    | Except.error message => Except.error (ChunkError.parseFailure filePath message)
    | Except.ok codeChunks =>
        Except.ok (codeChunks.map (fun c => _mapChunk c filePath language))

/-- Source `CodeChunker.tryChunkText`: the non-throwing variant, returning
`none` on any failure of `chunkText`. -/
def tryChunkText (cfg : CodeChunkerConfig) (codeChunk : AstCapability)
    (content filePath : String) : Option (List Chunk) :=
  match chunkText cfg codeChunk content filePath with
  | Except.ok chunks => some chunks
  | Except.error _ => none

/-- A source file handed to the batch entry point (source `SourceFile`,
restricted to the fields `chunkSourceFiles` reads). -/
structure SourceFile where
  relativePath : String
  content : String

/-- Source `CodeChunker.chunkSourceFiles`: iterate over the files, skip
unsupported ones, try to chunk each remaining one, skip it on failure, and
accumulate the chunks of the files that succeeded. -/
def chunkSourceFiles (cfg : CodeChunkerConfig) (codeChunk : AstCapability) :
    List SourceFile → List Chunk
  | [] => []
  | file :: rest =>
    if isSupported file.relativePath then
      match chunkText cfg codeChunk file.content file.relativePath with
      | Except.ok chunks => chunks ++ chunkSourceFiles cfg codeChunk rest
      | Except.error _ => chunkSourceFiles cfg codeChunk rest
    else
      chunkSourceFiles cfg codeChunk rest

end CodeChunker

namespace SearchTool

/-- One combined result row of the MCP `libragen_search` tool (source
`SearchResultItem`, with scores embedded as rationals). -/
structure SearchResultItem where
  content : String
  score : Rat
  sourceFile : String
  startLine : Option Nat
  endLine : Option Nat
  language : Option String
  library : String

/-- The comparator `(a, b) => b.score - a.score` passed to
`allResults.sort`: it orders items by score in non-increasing order. -/
def scoreDescLe (a b : SearchResultItem) : Prop :=
  b.score ≤ a.score

instance : DecidableRel scoreDescLe :=
  fun a b => inferInstanceAs (Decidable (b.score ≤ a.score))

instance : IsTotal SearchResultItem scoreDescLe :=
  ⟨fun a b => le_total b.score a.score⟩

instance : IsTrans SearchResultItem scoreDescLe :=
  ⟨fun _ _ _ hab hbc => le_trans hbc hab⟩

/-- The aggregation step of `registerSearchTool`: flatten the per-library
result lists into `allResults`, sort by score descending, and keep at most
`topK` items (`allResults.sort(...)` followed by `allResults.slice(0, topK)`). -/
def combineResults (perLibrary : List (List SearchResultItem)) (topK : Nat) :
    List SearchResultItem :=
  ((perLibrary.flatten).insertionSort scoreDescLe).take topK

end SearchTool

namespace TimeEstimate

/-- System description used for the estimate (source `SystemInfo`; the
memory size is a rational because the source rounds it to one decimal). -/
structure SystemInfo where
  cpuModel : String
  cpuCores : Nat
  totalMemoryGB : Rat
  platform : String
  arch : String

/-- Result of the estimate (source `TimeEstimate`). -/
structure TimeEstimate where
  estimatedSeconds : Rat
  formattedTime : String
  chunksPerSecond : Rat
  systemInfo : SystemInfo

/-- One entry of `PERFORMANCE_CONFIGS`: a matcher deciding whether the
entry applies and a calculator producing the chunks-per-second rate. -/
structure PerformanceConfig where
  matcher : SystemInfo → Bool
  calculator : SystemInfo → Rat

/-- JavaScript's `String.prototype.includes` over exploded strings. -/
def includesAux (pat : List Char) : List Char → Bool
  | [] => pat.isEmpty
  | c :: rest => pat.isPrefixOf (c :: rest) || includesAux pat rest

/-- JavaScript's `String.prototype.includes`. -/
def stringIncludes (s pat : String) : Bool :=
  includesAux pat.toList s.toList

/-- Source constant `PERFORMANCE_CONFIGS`, in priority order
(first match wins). -/
def PERFORMANCE_CONFIGS : List PerformanceConfig :=
  [ { matcher := fun info =>
        info.arch == "arm64" && info.platform == "darwin" && stringIncludes info.cpuModel "M4"
    , calculator := fun info =>
        if 14 ≤ info.cpuCores then 70 else if 10 ≤ info.cpuCores then 65 else 60 }
  , { matcher := fun info =>
        info.arch == "arm64" && info.platform == "darwin" && stringIncludes info.cpuModel "M3"
    , calculator := fun info =>
        if 14 ≤ info.cpuCores then 60 else if 11 ≤ info.cpuCores then 55 else 50 }
  , { matcher := fun info =>
        info.arch == "arm64" && info.platform == "darwin" && stringIncludes info.cpuModel "M2"
    , calculator := fun info =>
        if 12 ≤ info.cpuCores then 55 else if 10 ≤ info.cpuCores then 50 else 45 }
  , { matcher := fun info =>
        info.arch == "arm64" && info.platform == "darwin" && stringIncludes info.cpuModel "M1"
    , calculator := fun info =>
        if 10 ≤ info.cpuCores then 45 else if 8 ≤ info.cpuCores then 40 else 35 }
  , { matcher := fun info => info.arch == "arm64" && info.platform == "darwin"
    , calculator := fun _ => 40 }
  , { matcher := fun info => info.arch == "x64"
    , calculator := fun info =>
        if 16 ≤ info.cpuCores then 30
        else if 8 ≤ info.cpuCores then 22
        else if 4 ≤ info.cpuCores then 15
        else 10 }
  , { matcher := fun info => info.arch == "arm64"
    , calculator := fun info => if 8 ≤ info.cpuCores then 20 else 8 }
  , { matcher := fun _ => true
    , calculator := fun _ => 15 } ]

/-- Source `getBaselineChunksPerSecond`: apply the calculator of the first
matching configuration, with 15 as the unreachable fallback. -/
def getBaselineChunksPerSecond (systemInfo : SystemInfo) : Rat :=
  match PERFORMANCE_CONFIGS.find? (fun config => config.matcher systemInfo) with
  | none => 15
  | some config => config.calculator systemInfo

/-- JavaScript's `Math.round`: round half up. -/
def jsRound (q : Rat) : Int :=
  Int.floor (q + 1 / 2)

/-- Source `formatTime`: format seconds into a human-readable time string. -/
def formatTime (seconds : Rat) : String :=
  if seconds < 60 then
    toString (jsRound seconds) ++ "s"
  else
    let minutes : Int := Int.floor (seconds / 60)
    let remainingSeconds : Int := jsRound (seconds - 60 * ((Int.floor (seconds / 60) : Int) : Rat))
    if minutes < 60 then
      if 0 < remainingSeconds then
        toString minutes ++ "m " ++ toString remainingSeconds ++ "s"
      else
        toString minutes ++ "m"
    else
      let hours : Int := minutes / 60
      let remainingMinutes : Int := minutes % 60
      if 0 < remainingMinutes then
        toString hours ++ "h " ++ toString remainingMinutes ++ "m"
      else
        toString hours ++ "h"

/-- Source `estimateEmbeddingTime`: divide the chunk count by the system's
baseline chunks-per-second rate.  The system information, obtained from the
`os` module in the source, is passed in explicitly. -/
def estimateEmbeddingTime (systemInfo : SystemInfo) (chunkCount : Rat) : TimeEstimate :=
  let chunksPerSecond := getBaselineChunksPerSecond systemInfo
  let estimatedSeconds := chunkCount / chunksPerSecond
  { estimatedSeconds := estimatedSeconds
  , formattedTime := formatTime estimatedSeconds
  , chunksPerSecond := chunksPerSecond
  , systemInfo := systemInfo }

end TimeEstimate

namespace StorageEngine

/-- Modelled from the spec: the Storage Engine is not part of the visible
sources.  A `StoredChunk` is a chunk plus the storage-assigned fields the
context-expansion claims need: the monotonic `id` that defines adjacency
ordering within a source file, and the `sourceFile` it came from. -/
structure StoredChunk where
  id : Int
  sourceFile : String
  content : String
deriving DecidableEq

/-- Modelled from the spec: `getByIdRange(sourceFile, idLow, idHigh)` of the
Storage Engine, which is absent from the sources.  It returns the stored
chunks whose `id` lies in the inclusive range and whose `sourceFile` matches,
in storage order. -/
def getByIdRange (store : List StoredChunk) (sourceFile : String)
    (idLow idHigh : Int) : List StoredChunk :=
  store.filter (fun ch =>
    ch.sourceFile == sourceFile && decide (idLow ≤ ch.id) && decide (ch.id ≤ idHigh))

/-- Modelled from the spec: step 7 of the Hybrid Searcher (absent from the
sources) fetches the `contextBefore` sibling chunks of a result via
`getByIdRange`, restricted to the result's own `sourceFile` and to the `id`
interval directly before the result. -/
def contextBeforeChunks (store : List StoredChunk) (result : StoredChunk)
    (contextBefore : Nat) : List StoredChunk :=
  getByIdRange store result.sourceFile (result.id - contextBefore) (result.id - 1)

/-- Modelled from the spec: the `contextAfter` counterpart of
`contextBeforeChunks`, fetching the `id` interval directly after the result. -/
def contextAfterChunks (store : List StoredChunk) (result : StoredChunk)
    (contextAfter : Nat) : List StoredChunk :=
  getByIdRange store result.sourceFile (result.id + 1) (result.id + contextAfter)

end StorageEngine

namespace MigrationRunner

/-- Modelled from the spec: the newest schema version this engine writes
(`CURRENT`); the Migration Runner itself is absent from the sources. -/
def CURRENT_SCHEMA_VERSION : Nat := 2

/-- Modelled from the spec: the queryable state of a library file — its
schema-version marker and its chunk table. -/
structure LibraryFile where
  schemaVersion : Nat
  chunks : List StorageEngine.StoredChunk
deriving DecidableEq

/-- Modelled from the spec: result record of `migrateIfNeeded`. -/
structure MigrationResult where
  migrated : Bool
  fromVersion : Nat
  toVersion : Nat
deriving DecidableEq

/-- Modelled from the spec: the two failures of `migrateIfNeeded` — the
file is newer than `CURRENT` (downgrade never attempted), or migration is
needed but the caller did not opt in with the force flag. -/
inductive MigrationError where
  | schemaVersionError (found : Nat)
  | migrationRequiredError (found : Nat)
deriving DecidableEq

/-- Modelled from the spec: a family of one-version-at-a-time upgrade
functions; `step v` upgrades the content of a file whose version marker is
`v`.  The concrete steps are not in the sources, so they are a parameter. -/
def MigrationStep : Type :=
  Nat → LibraryFile → LibraryFile

/-- Modelled from the spec: apply the ordered upgrade steps one version at a
time, checking the version marker before each application and rewriting the
marker after each step; `fuel` bounds the number of transitions. -/
def runSteps (step : MigrationStep) : Nat → LibraryFile → LibraryFile
  | 0, file => file
  | fuel + 1, file =>
    if file.schemaVersion < CURRENT_SCHEMA_VERSION then
      runSteps step fuel
        { step file.schemaVersion file with schemaVersion := file.schemaVersion + 1 }
    else
      file

/-- Modelled from the spec: `migrateIfNeeded`.  It fails with
`SchemaVersionError` when the file is newer than `CURRENT`, reports
`migrated: false` without touching the file when the version marker already
equals `CURRENT`, runs the upgrade steps when the caller forced migration,
and otherwise fails with `MigrationRequiredError`. -/
def migrateIfNeeded (step : MigrationStep) (force : Bool) (file : LibraryFile) :
    Except MigrationError (MigrationResult × LibraryFile) :=
  if CURRENT_SCHEMA_VERSION < file.schemaVersion then
    Except.error (MigrationError.schemaVersionError file.schemaVersion)
  else if file.schemaVersion = CURRENT_SCHEMA_VERSION then
    Except.ok
      ( { migrated := false
        , fromVersion := file.schemaVersion
        , toVersion := file.schemaVersion }
      , file )
  else if force then
    Except.ok
      ( { migrated := true
        , fromVersion := file.schemaVersion
        , toVersion := CURRENT_SCHEMA_VERSION }
      , runSteps step (CURRENT_SCHEMA_VERSION - file.schemaVersion) file )
  else
    Except.error (MigrationError.migrationRequiredError file.schemaVersion)

end MigrationRunner

namespace ChunkSplitter

/-- Modelled from the spec: one produced chunk of the Chunk Splitter, which
is absent from the sources — `(content, startOffset, endOffset)` with the
text embedded as a character list. -/
structure TextChunk where
  content : List Char
  startOffset : Nat
  endOffset : Nat
deriving DecidableEq

/-- Modelled from the spec: the largest position `e` with `lo < e ≤ hi` such
that the character just before `e` satisfies `pred`, scanning downward from
`hi`; `none` when no such boundary exists. -/
def lastPos (pred : Char → Bool) (text : List Char) (lo : Nat) : Nat → Option Nat
  | 0 => none
  | hi + 1 =>
    if hi + 1 ≤ lo then none
    else if pred (text.getD hi ' ') then some (hi + 1)
    else lastPos pred text lo hi

/-- Modelled from the spec: choose the end offset of the chunk whose
non-overlapping region starts at `p` and whose content starts at `s`.
The window may extend to `s + targetSize` (clipped to the text length);
within it the splitter prefers the last paragraph boundary (newline), then
the last sentence boundary (full stop), then the last word boundary
(space), and falls back to a hard character cut at the window edge. -/
def chooseBreak (text : List Char) (p s targetSize : Nat) : Nat :=
  match lastPos (fun c => c == '\n') text p (min (s + targetSize) text.length) with
  | some e => e
  | none =>
    match lastPos (fun c => c == '.') text p (min (s + targetSize) text.length) with
    | some e => e
    | none =>
      match lastPos (fun c => c == ' ') text p (min (s + targetSize) text.length) with
      | some e => e
      | none => min (s + targetSize) text.length

/-- Modelled from the spec: the splitting loop.  `p` is the start of the
next non-overlapping region; each produced chunk starts `overlap`
characters before `p` (clamped at the text start) and ends at the chosen
boundary, which becomes the next `p`.  `fuel` is a structural recursion
bound; `split` supplies enough fuel for the whole text. -/
def splitLoop (text : List Char) (targetSize overlap : Nat) : Nat → Nat → List TextChunk
  | _, 0 => []
  | p, fuel + 1 =>
    if text.length ≤ p then []
    else
      let s := p - overlap
      let e := chooseBreak text p s targetSize
      { content := (text.drop s).take (e - s), startOffset := s, endOffset := e }
        :: splitLoop text targetSize overlap e fuel

/-- Modelled from the spec: `split(text, targetSize, overlap)` — the ordered
chunk sequence of the Chunk Splitter (precondition `overlap < targetSize`
is enforced at construction in the spec and appears as a hypothesis of the
theorems). -/
def split (text : List Char) (targetSize overlap : Nat) : List TextChunk :=
  splitLoop text targetSize overlap 0 text.length

/-- The non-overlapping region of each chunk is its content with the part
already covered by the previous chunk (up to the running offset) removed;
this concatenates those regions in order. -/
def concatNonOverlap : List TextChunk → Nat → List Char
  | [], _ => []
  | chunk :: rest, prevEnd =>
    chunk.content.drop (prevEnd - chunk.startOffset) ++ concatNonOverlap rest chunk.endOffset

end ChunkSplitter

namespace HybridSearcher

/-- Modelled from the spec: a search candidate of the Hybrid Searcher
(absent from the sources) — a chunk `id` with a raw or normalized score. -/
structure ScoredId where
  id : Nat
  score : Rat
deriving DecidableEq

/-- Modelled from the spec: rank-based normalization of a candidate list
into `[0,1]` — the candidate at 0-based rank `i` of a list of length `n`
receives the normalized score `(n - i) / n`, so the best candidate maps to
`1`, ranks strictly decrease, and every present candidate stays positive. -/
def rankNormalizeAux (n : Nat) : Nat → List ScoredId → List ScoredId
  | _, [] => []
  | i, c :: rest =>
    { id := c.id, score := ((n : Rat) - (i : Rat)) / (n : Rat) }
      :: rankNormalizeAux n (i + 1) rest

/-- Modelled from the spec: normalize a whole candidate list by rank. -/
def rankNormalize (cands : List ScoredId) : List ScoredId :=
  rankNormalizeAux cands.length 0 cands

/-- The normalized score a candidate set assigns to a chunk `id`, with `0`
for a chunk the set does not contain (spec step 3: a chunk present in only
one candidate set uses `0` for the missing signal). -/
def lookupScore (id : Nat) (cands : List ScoredId) : Rat :=
  match cands.find? (fun c => c.id == id) with
  | some c => c.score
  | none => 0

/-- Modelled from the spec: fuse the two normalized candidate sets by key —
`fusedScore = hybridAlpha * normalizedVectorScore + (1 - hybridAlpha) *
normalizedLexicalScore`, over the union of both id sets. -/
def fuseCandidates (hybridAlpha : Rat) (vNorm lNorm : List ScoredId) : List ScoredId :=
  let fusedVector := vNorm.map (fun c =>
    { id := c.id
    , score := hybridAlpha * c.score + (1 - hybridAlpha) * lookupScore c.id lNorm })
  let lexicalOnly := (lNorm.filter (fun c => ! vNorm.any (fun v => v.id == c.id))).map
    (fun c => { id := c.id, score := hybridAlpha * 0 + (1 - hybridAlpha) * c.score })
  fusedVector ++ lexicalOnly

/-- Modelled from the spec: the result order of step 5 — fused score
descending, ties broken by lower `id`. -/
def fusedLe (a b : ScoredId) : Prop :=
  b.score < a.score ∨ (a.score = b.score ∧ a.id ≤ b.id)

instance : DecidableRel fusedLe :=
  fun a b => inferInstanceAs (Decidable (b.score < a.score ∨ (a.score = b.score ∧ a.id ≤ b.id)))

instance : IsTotal ScoredId fusedLe := by
  constructor
  intro a b
  rcases lt_trichotomy a.score b.score with h | h | h
  · exact Or.inr (Or.inl h)
  · rcases Nat.le_total a.id b.id with hid | hid
    · exact Or.inl (Or.inr ⟨h, hid⟩)
    · exact Or.inr (Or.inr ⟨h.symm, hid⟩)
  · exact Or.inl (Or.inl h)

instance : IsTrans ScoredId fusedLe := by
  constructor
  intro a b c hab hbc
  rcases hab with h1 | ⟨h1, h1'⟩ <;> rcases hbc with h2 | ⟨h2, h2'⟩
  · exact Or.inl (h2.trans h1)
  · exact Or.inl (h2 ▸ h1)
  · exact Or.inl (by rw [h1]; exact h2)
  · exact Or.inr ⟨h1.trans h2, h1'.trans h2'⟩

instance : IsAntisymm ScoredId fusedLe := by
  constructor
  intro a b hab hba
  rcases hab with h1 | ⟨h1, h1'⟩
  · rcases hba with h2 | ⟨h2, _⟩
    · exact absurd (h1.trans h2) (lt_irrefl _)
    · exact absurd (h2 ▸ h1) (lt_irrefl _)
  · rcases hba with h2 | ⟨_, h2'⟩
    · exact absurd (h1 ▸ h2) (lt_irrefl _)
    · cases a
      cases b
      simp only at h1 h1' h2'
      simp [h1, Nat.le_antisymm h1' h2']

/-- Modelled from the spec: the Hybrid Searcher pipeline for a fixed query
(steps 2, 3 and 5; no rerank, no content-version filter).  `allVector` and
`allLexical` are the full candidate rankings the Storage Engine would
return; the searcher over-fetches `k * overFetch` of each, normalizes each
set independently by rank, fuses by key, sorts by fused score descending
with ties to the lower id, and truncates to `k` result ids. -/
def hybridSearch (allVector allLexical : List ScoredId) (hybridAlpha : Rat)
    (k overFetch : Nat) : List Nat :=
  let vectorCandidates := allVector.take (k * overFetch)
  let lexicalCandidates := allLexical.take (k * overFetch)
  let fused := fuseCandidates hybridAlpha
    (rankNormalize vectorCandidates) (rankNormalize lexicalCandidates)
  ((fused.insertionSort fusedLe).take k).map ScoredId.id

/-- Modelled from the spec: pure `vectorSearch(embedding, k)` — the first
`k` ids of the vector ranking. -/
def vectorSearch (allVector : List ScoredId) (k : Nat) : List Nat :=
  (allVector.take k).map ScoredId.id

/-- Modelled from the spec: pure `ftsSearch(queryText, k)` — the first `k`
ids of the lexical ranking. -/
def ftsSearch (allLexical : List ScoredId) (k : Nat) : List Nat :=
  (allLexical.take k).map ScoredId.id

end HybridSearcher

/-- Decidable equality for `Except`, used to evaluate witnesses. -/
instance {e a : Type} [DecidableEq e] [DecidableEq a] : DecidableEq (Except e a) := fun x y =>
  match x, y with
  | Except.ok v, Except.ok w =>
    if h : v = w then isTrue (by rw [h]) else isFalse (by intro hc; cases hc; exact h rfl)
  | Except.error v, Except.error w =>
    if h : v = w then isTrue (by rw [h]) else isFalse (by intro hc; cases hc; exact h rfl)
  | Except.ok _, Except.error _ => isFalse (by intro hc; cases hc)
  | Except.error _, Except.ok _ => isFalse (by intro hc; cases hc)

/-! Theorems. -/

namespace CodeChunker

/-- When the extension lookup fails, `detectLanguage` returns `none`. -/
theorem detectLanguage_eq_none_of_not_supported {filePath : String}
    (h : ¬ isSupported filePath = true) : detectLanguage filePath = none := by
  unfold isSupported at h
  unfold detectLanguage
  cases hl : EXTENSION_TO_LANGUAGE.lookup (toLowerAscii (extname filePath)) with
  | none => rfl
  | some language => rw [hl] at h; simp at h

/-- C5: for every batch of source files, `chunkSourceFiles` is a total
function (it never propagates an error) and its result is exactly the
concatenation of the chunk lists of the files whose `chunkText` succeeded;
unsupported and failing files contribute nothing. -/
theorem chunkSourceFiles_exactly_successful (cfg : CodeChunkerConfig)
    (codeChunk : AstCapability) (files : List SourceFile) :
    chunkSourceFiles cfg codeChunk files =
      (files.map (fun f =>
        match chunkText cfg codeChunk f.content f.relativePath with
        | Except.ok chunks => chunks
        | Except.error _ => [])).flatten := by
  induction files with
  | nil => rfl
  | cons f rest ih =>
    simp only [chunkSourceFiles, List.map_cons, List.flatten_cons]
    by_cases hs : isSupported f.relativePath = true
    · rw [if_pos hs]
      cases hct : chunkText cfg codeChunk f.content f.relativePath with
      | ok chunks => rw [ih]
      | error e => simp [ih]
    · rw [if_neg hs]
      have hd : detectLanguage f.relativePath = none :=
        detectLanguage_eq_none_of_not_supported hs
      have hct : chunkText cfg codeChunk f.content f.relativePath =
          Except.error (ChunkError.unsupportedFileType f.relativePath) := by
        unfold chunkText
        rw [hd]
      rw [hct, ih]
      simp

/-- C6: on the successful AST path, every mapped chunk's metadata carries the
external capability's 0-indexed line range converted to the engine's
1-indexed convention, so every returned start line is at least 1. -/
theorem chunkText_lines_one_indexed (cfg : CodeChunkerConfig)
    (codeChunk : AstCapability) (content filePath : String)
    (language : CodeChunkerLanguage) (raws : List CodeChunkChunk)
    (hdet : detectLanguage filePath = some language)
    (hast : codeChunk filePath content
      { maxChunkSize := cfg.maxChunkSize
      , contextMode := cfg.contextMode
      , overlapLines := cfg.overlapLines
      , language := language } = Except.ok raws) :
    chunkText cfg codeChunk content filePath =
      Except.ok (raws.map (fun r => _mapChunk r filePath language))
    ∧ ∀ r ∈ raws,
        (_mapChunk r filePath language).metadata.startLine = some (r.lineRange.start + 1)
        ∧ (_mapChunk r filePath language).metadata.endLine = some (r.lineRange.stop + 1)
        ∧ ∀ n, (_mapChunk r filePath language).metadata.startLine = some n → 1 ≤ n := by
  constructor
  · simp only [chunkText, hdet, hast]
  · intro r _
    refine ⟨rfl, rfl, ?_⟩
    intro n hn
    simp only [_mapChunk, Option.some.injEq] at hn
    omega

/-- C6 witness: a concrete capability returning one chunk with 0-indexed
lines 0 to 2 produces a mapped chunk with 1-indexed lines 1 to 3. -/
theorem chunkText_lines_one_indexed_witness :
    detectLanguage "a.ts" = some CodeChunkerLanguage.typescript
    ∧ chunkText defaultConfig
        (fun _ _ _ => Except.ok
          [{ text := "x"
           , contextualizedText := "ctx"
           , lineRange := { start := 0, stop := 2 }
           , context := { scope := [], entities := [], siblings := [], imports := [] } }])
        "x" "a.ts" =
        Except.ok
          ([{ text := "x"
            , contextualizedText := "ctx"
            , lineRange := { start := 0, stop := 2 }
            , context := { scope := [], entities := [], siblings := [], imports := [] } }].map
            (fun r => _mapChunk r "a.ts" CodeChunkerLanguage.typescript)) := by
  refine ⟨by decide, ?_⟩
  exact (chunkText_lines_one_indexed defaultConfig _ "x" "a.ts" _ _ (by decide) rfl).1

/-- C7: `chunkText` fails with the unsupported-file-type error exactly when
the case-insensitive extension lookup recognizes no language, fails with the
parse-failure wrapper exactly when the external capability fails, succeeds
with the mapped chunks otherwise, and `tryChunkText` returns `none`
precisely on the failing cases. -/
theorem chunkText_failure_characterization (cfg : CodeChunkerConfig)
    (codeChunk : AstCapability) (content filePath : String) :
    detectLanguage filePath = EXTENSION_TO_LANGUAGE.lookup (toLowerAscii (extname filePath))
    ∧ (detectLanguage filePath = none →
        chunkText cfg codeChunk content filePath =
          Except.error (ChunkError.unsupportedFileType filePath))
    ∧ (∀ language message, detectLanguage filePath = some language →
        codeChunk filePath content
          { maxChunkSize := cfg.maxChunkSize
          , contextMode := cfg.contextMode
          , overlapLines := cfg.overlapLines
          , language := language } = Except.error message →
        chunkText cfg codeChunk content filePath =
          Except.error (ChunkError.parseFailure filePath message))
    ∧ (∀ language raws, detectLanguage filePath = some language →
        codeChunk filePath content
          { maxChunkSize := cfg.maxChunkSize
          , contextMode := cfg.contextMode
          , overlapLines := cfg.overlapLines
          , language := language } = Except.ok raws →
        chunkText cfg codeChunk content filePath =
          Except.ok (raws.map (fun r => _mapChunk r filePath language)))
    ∧ (tryChunkText cfg codeChunk content filePath = none ↔
        ∃ e, chunkText cfg codeChunk content filePath = Except.error e) := by
  refine ⟨rfl, ?_, ?_, ?_, ?_⟩
  · intro hd
    unfold chunkText
    rw [hd]
  · intro language message hd hc
    simp only [chunkText, hd, hc]
  · intro language raws hd hc
    simp only [chunkText, hd, hc]
  · unfold tryChunkText
    cases h : chunkText cfg codeChunk content filePath with
    | ok chunks => simp
    | error e => simp

/-- C7 witness: an unrecognized extension yields the unsupported-file-type
error, a failing capability on a recognized extension yields the wrapped
parse failure, and `tryChunkText` returns `none` in that failing case. -/
theorem chunkText_failure_characterization_witness :
    chunkText defaultConfig (fun _ _ _ => Except.error "boom") "c" "README.md" =
      Except.error (ChunkError.unsupportedFileType "README.md")
    ∧ chunkText defaultConfig (fun _ _ _ => Except.error "boom") "c" "a.ts" =
      Except.error (ChunkError.parseFailure "a.ts" "boom")
    ∧ tryChunkText defaultConfig (fun _ _ _ => Except.error "boom") "c" "a.ts" = none := by
  refine ⟨?_, ?_, ?_⟩
  · exact (chunkText_failure_characterization defaultConfig _ "c" "README.md").2.1 (by decide)
  · exact (chunkText_failure_characterization defaultConfig _ "c" "a.ts").2.2.1
      CodeChunkerLanguage.typescript "boom" (by decide) rfl
  · exact (chunkText_failure_characterization defaultConfig _ "c" "a.ts").2.2.2.2.mpr
      ⟨ChunkError.parseFailure "a.ts" "boom",
        (chunkText_failure_characterization defaultConfig _ "c" "a.ts").2.2.1
          CodeChunkerLanguage.typescript "boom" (by decide) rfl⟩

/-- C8: every chunk produced by the AST path carries `embeddingContent`
equal to the external capability's contextualized rendering of that chunk
and `content` equal to the raw chunk text, unconditionally. -/
theorem chunkText_embeddingContent_contextualized (cfg : CodeChunkerConfig)
    (codeChunk : AstCapability) (content filePath : String)
    (language : CodeChunkerLanguage) (raws : List CodeChunkChunk)
    (hdet : detectLanguage filePath = some language)
    (hast : codeChunk filePath content
      { maxChunkSize := cfg.maxChunkSize
      , contextMode := cfg.contextMode
      , overlapLines := cfg.overlapLines
      , language := language } = Except.ok raws) :
    chunkText cfg codeChunk content filePath =
      Except.ok (raws.map (fun r => _mapChunk r filePath language))
    ∧ ∀ r ∈ raws,
        (_mapChunk r filePath language).embeddingContent = some r.contextualizedText
        ∧ (_mapChunk r filePath language).content = r.text := by
  constructor
  · simp only [chunkText, hdet, hast]
  · intro r _
    exact ⟨rfl, rfl⟩

/-- C8 witness: a chunk whose contextualized rendering is strictly larger
than its raw text still gets that rendering as its `embeddingContent`. -/
theorem chunkText_embeddingContent_contextualized_witness :
    "x".length < "a much larger contextualized rendering of x".length
    ∧ (_mapChunk
        { text := "x"
        , contextualizedText := "a much larger contextualized rendering of x"
        , lineRange := { start := 4, stop := 4 }
        , context := { scope := [], entities := [], siblings := [], imports := [] } }
        "b.py" CodeChunkerLanguage.python).embeddingContent =
      some "a much larger contextualized rendering of x" := by
  refine ⟨by decide, ?_⟩
  exact ((chunkText_embeddingContent_contextualized defaultConfig
    (fun _ _ _ => Except.ok
      [{ text := "x"
       , contextualizedText := "a much larger contextualized rendering of x"
       , lineRange := { start := 4, stop := 4 }
       , context := { scope := [], entities := [], siblings := [], imports := [] } }])
    "x" "b.py" CodeChunkerLanguage.python _ (by decide) rfl).2 _ (by simp)).1

end CodeChunker

namespace SearchTool

/-- C9: the combined result list of the MCP search tool is sorted by score
in non-increasing order and never holds more than `topK` items, however many
per-library results were gathered. -/
theorem combineResults_sorted_topK (perLibrary : List (List SearchResultItem))
    (topK : Nat) :
    (combineResults perLibrary topK).length ≤ topK
    ∧ List.Sorted scoreDescLe (combineResults perLibrary topK) := by
  constructor
  · exact List.length_take_le topK _
  · exact List.Pairwise.sublist (List.take_sublist topK _)
      (List.sorted_insertionSort scoreDescLe perLibrary.flatten)

end SearchTool

namespace TimeEstimate

/-- C10: for a fixed system, `estimateEmbeddingTime` is linear in the chunk
count — the reported chunks-per-second rate does not depend on the chunk
count, the estimated seconds equal the chunk count divided by that rate, and
doubling the chunk count exactly doubles the estimate. -/
theorem estimateEmbeddingTime_linear (systemInfo : SystemInfo) (n m : Rat) :
    (estimateEmbeddingTime systemInfo n).chunksPerSecond =
      (estimateEmbeddingTime systemInfo m).chunksPerSecond
    ∧ (estimateEmbeddingTime systemInfo n).estimatedSeconds =
      n / (estimateEmbeddingTime systemInfo n).chunksPerSecond
    ∧ (estimateEmbeddingTime systemInfo (2 * n)).estimatedSeconds =
      2 * (estimateEmbeddingTime systemInfo n).estimatedSeconds := by
  refine ⟨rfl, rfl, ?_⟩
  simp only [estimateEmbeddingTime]
  exact mul_div_assoc 2 n (getBaselineChunksPerSecond systemInfo)

end TimeEstimate

namespace StorageEngine

/-- The chunks returned by `getByIdRange` match the requested source file
and lie in the requested id interval. -/
theorem mem_getByIdRange {store : List StoredChunk} {sourceFile : String}
    {idLow idHigh : Int} {ch : StoredChunk}
    (h : ch ∈ getByIdRange store sourceFile idLow idHigh) :
    ch ∈ store ∧ ch.sourceFile = sourceFile ∧ idLow ≤ ch.id ∧ ch.id ≤ idHigh := by
  unfold getByIdRange at h
  rw [List.mem_filter] at h
  obtain ⟨hmem, hpred⟩ := h
  simp only [Bool.and_eq_true, beq_iff_eq, decide_eq_true_eq] at hpred
  exact ⟨hmem, hpred.1.1, hpred.1.2, hpred.2⟩

/-- When the stored ids are pairwise distinct, `getByIdRange` returns no
more chunks than the size of the requested inclusive id interval. -/
theorem getByIdRange_length_le (store : List StoredChunk)
    (hids : (store.map StoredChunk.id).Nodup) (sourceFile : String)
    (idLow idHigh : Int) :
    (getByIdRange store sourceFile idLow idHigh).length ≤ (idHigh + 1 - idLow).toNat := by
  set r := getByIdRange store sourceFile idLow idHigh with hr
  have hsub : List.Sublist (r.map StoredChunk.id) (store.map StoredChunk.id) :=
    List.Sublist.map StoredChunk.id (List.filter_sublist store)
  have hnd : (r.map StoredChunk.id).Nodup := List.Nodup.sublist hsub hids
  have hss : (r.map StoredChunk.id).toFinset ⊆ Finset.Icc idLow idHigh := by
    intro x hx
    rw [List.mem_toFinset, List.mem_map] at hx
    obtain ⟨ch, hch, hchx⟩ := hx
    obtain ⟨_, _, h1, h2⟩ := mem_getByIdRange hch
    rw [Finset.mem_Icc]
    omega
  calc r.length = (r.map StoredChunk.id).length := (List.length_map r _).symm
    _ = (r.map StoredChunk.id).toFinset.card := (List.toFinset_card_of_nodup hnd).symm
    _ ≤ (Finset.Icc idLow idHigh).card := Finset.card_le_card hss
    _ = (idHigh + 1 - idLow).toNat := Int.card_Icc idLow idHigh

/-- C2: with pairwise-distinct stored ids, every chunk returned as
before/after context for a result has the result's own `sourceFile`, and the
number of context chunks never exceeds the requested `contextBefore`
(respectively `contextAfter`), even at file boundaries. -/
theorem contextExpansion_same_file_and_bounded (store : List StoredChunk)
    (hids : (store.map StoredChunk.id).Nodup) (result : StoredChunk)
    (contextBefore contextAfter : Nat) :
    (∀ ch ∈ contextBeforeChunks store result contextBefore,
        ch.sourceFile = result.sourceFile)
    ∧ (contextBeforeChunks store result contextBefore).length ≤ contextBefore
    ∧ (∀ ch ∈ contextAfterChunks store result contextAfter,
        ch.sourceFile = result.sourceFile)
    ∧ (contextAfterChunks store result contextAfter).length ≤ contextAfter := by
  refine ⟨?_, ?_, ?_, ?_⟩
  · intro ch hch
    exact (mem_getByIdRange hch).2.1
  · have h := getByIdRange_length_le store hids result.sourceFile
      (result.id - contextBefore) (result.id - 1)
    have harith : (result.id - 1 + 1 - (result.id - contextBefore)).toNat = contextBefore := by
      omega
    rw [harith] at h
    exact h
  · intro ch hch
    exact (mem_getByIdRange hch).2.1
  · have h := getByIdRange_length_le store hids result.sourceFile
      (result.id + 1) (result.id + contextAfter)
    have harith : (result.id + contextAfter + 1 - (result.id + 1)).toNat = contextAfter := by
      omega
    rw [harith] at h
    exact h

/-- C2 witness: in a three-chunk store spanning two source files, expanding
the middle chunk of file `f` with one chunk of context on each side stays
inside file `f` and within the requested counts, although file `g` holds the
adjacent id. -/
theorem contextExpansion_same_file_and_bounded_witness :
    (([ { id := 0, sourceFile := "f", content := "a" }
      , { id := 1, sourceFile := "f", content := "b" }
      , { id := 2, sourceFile := "g", content := "c" } ] :
        List StoredChunk).map StoredChunk.id).Nodup
    ∧ (contextBeforeChunks
        [ { id := 0, sourceFile := "f", content := "a" }
        , { id := 1, sourceFile := "f", content := "b" }
        , { id := 2, sourceFile := "g", content := "c" } ]
        { id := 1, sourceFile := "f", content := "b" } 1).length ≤ 1
    ∧ (contextAfterChunks
        [ { id := 0, sourceFile := "f", content := "a" }
        , { id := 1, sourceFile := "f", content := "b" }
        , { id := 2, sourceFile := "g", content := "c" } ]
        { id := 1, sourceFile := "f", content := "b" } 1).length ≤ 1 := by
  refine ⟨by decide, ?_, ?_⟩
  · exact (contextExpansion_same_file_and_bounded _ (by decide)
      { id := 1, sourceFile := "f", content := "b" } 1 1).2.1
  · exact (contextExpansion_same_file_and_bounded _ (by decide)
      { id := 1, sourceFile := "f", content := "b" } 1 1).2.2.2

end StorageEngine

namespace MigrationRunner

/-- Running the upgrade steps with exactly the fuel separating the file from
the current version leaves the version marker at `CURRENT`. -/
theorem runSteps_schemaVersion (step : MigrationStep) :
    ∀ (fuel : Nat) (file : LibraryFile),
      file.schemaVersion + fuel = CURRENT_SCHEMA_VERSION →
      (runSteps step fuel file).schemaVersion = CURRENT_SCHEMA_VERSION := by
  intro fuel
  induction fuel with
  | zero =>
    intro file h
    simpa [runSteps] using h
  | succ n ih =>
    intro file h
    have hlt : file.schemaVersion < CURRENT_SCHEMA_VERSION := by omega
    simp only [runSteps, if_pos hlt]
    refine ih _ ?_
    show file.schemaVersion + 1 + n = CURRENT_SCHEMA_VERSION
    omega

/-- C3: a second `migrateIfNeeded` run immediately after a successful first
run reports `migrated: false` and returns the very same file value, so the
file's queryable content (its chunk table, hence chunk count and any fixed
query's scores) is unchanged; re-application is detected by the version
marker alone. -/
theorem migrateIfNeeded_idempotent (step : MigrationStep) (force force2 : Bool)
    (file file1 : LibraryFile) (result : MigrationResult)
    (h : migrateIfNeeded step force file = Except.ok (result, file1)) :
    migrateIfNeeded step force2 file1 =
      Except.ok
        ( { migrated := false
          , fromVersion := file1.schemaVersion
          , toVersion := file1.schemaVersion }
        , file1 )
    ∧ file1.schemaVersion = CURRENT_SCHEMA_VERSION := by
  have hver : file1.schemaVersion = CURRENT_SCHEMA_VERSION := by
    unfold migrateIfNeeded at h
    by_cases h1 : CURRENT_SCHEMA_VERSION < file.schemaVersion
    · rw [if_pos h1] at h
      cases h
    · rw [if_neg h1] at h
      by_cases h2 : file.schemaVersion = CURRENT_SCHEMA_VERSION
      · rw [if_pos h2] at h
        simp only [Except.ok.injEq, Prod.mk.injEq] at h
        obtain ⟨-, hfile⟩ := h
        rw [← hfile]
        exact h2
      · rw [if_neg h2] at h
        by_cases h3 : force = true
        · rw [if_pos h3] at h
          simp only [Except.ok.injEq, Prod.mk.injEq] at h
          obtain ⟨-, hfile⟩ := h
          rw [← hfile]
          exact runSteps_schemaVersion step _ file (by omega)
        · rw [if_neg h3] at h
          cases h
  constructor
  · unfold migrateIfNeeded
    rw [if_neg (by omega), if_pos hver]
  · exact hver

/-- C3 witness: forcing migration of a version-0 file and re-running on the
result yields `migrated: false` with the identical file. -/
theorem migrateIfNeeded_idempotent_witness :
    migrateIfNeeded (fun _ f => f) true { schemaVersion := 0, chunks := [] } =
      Except.ok
        ( { migrated := true, fromVersion := 0, toVersion := 2 }
        , { schemaVersion := 2, chunks := [] } )
    ∧ migrateIfNeeded (fun _ f => f) false { schemaVersion := 2, chunks := [] } =
      Except.ok
        ( { migrated := false, fromVersion := 2, toVersion := 2 }
        , { schemaVersion := 2, chunks := [] } ) := by
  constructor
  · decide
  · have h := (migrateIfNeeded_idempotent (fun _ f => f) true false
      { schemaVersion := 0, chunks := [] } { schemaVersion := 2, chunks := [] }
      { migrated := true, fromVersion := 0, toVersion := 2 } (by decide)).1
    simpa using h

end MigrationRunner

namespace ChunkSplitter

/-- A boundary found by `lastPos` lies strictly after `lo` and at or before
`hi`. -/
theorem lastPos_bounds (pred : Char → Bool) (text : List Char) (lo : Nat) :
    ∀ (hi e : Nat), lastPos pred text lo hi = some e → lo < e ∧ e ≤ hi := by
  intro hi
  induction hi with
  | zero =>
    intro e h
    simp [lastPos] at h
  | succ n ih =>
    intro e h
    unfold lastPos at h
    by_cases h1 : n + 1 ≤ lo
    · rw [if_pos h1] at h
      cases h
    · rw [if_neg h1] at h
      by_cases h2 : pred (text.getD n ' ') = true
      · rw [if_pos h2] at h
        cases h
        omega
      · rw [if_neg h2] at h
        have := ih e h
        omega

/-- The chosen break lies strictly after `p` and at or before the end of the
text, provided the window reaches past `p`. -/
theorem chooseBreak_bounds (text : List Char) (p s targetSize : Nat)
    (hp : p < text.length) (hps : p < s + targetSize) :
    p < chooseBreak text p s targetSize ∧ chooseBreak text p s targetSize ≤ text.length := by
  have hhard : p < min (s + targetSize) text.length ∧
      min (s + targetSize) text.length ≤ text.length := by omega
  unfold chooseBreak
  cases h1 : lastPos (fun c => c == '\n') text p (min (s + targetSize) text.length) with
  | some e =>
    simp only [h1]
    have := lastPos_bounds _ text p _ e h1
    omega
  | none =>
    simp only [h1]
    cases h2 : lastPos (fun c => c == '.') text p (min (s + targetSize) text.length) with
    | some e =>
      simp only [h2]
      have := lastPos_bounds _ text p _ e h2
      omega
    | none =>
      simp only [h2]
      cases h3 : lastPos (fun c => c == ' ') text p (min (s + targetSize) text.length) with
      | some e =>
        simp only [h3]
        have := lastPos_bounds _ text p _ e h3
        omega
      | none =>
        simp only [h3]
        omega

/-- Concatenating the non-overlapping regions of the chunks the loop
produces from position `p` yields the text from `p` on, for any sufficient
fuel. -/
theorem splitLoop_concat (text : List Char) (targetSize overlap : Nat)
    (hov : overlap < targetSize) :
    ∀ (fuel p : Nat), text.length ≤ p + fuel →
      concatNonOverlap (splitLoop text targetSize overlap p fuel) p = text.drop p := by
  intro fuel
  induction fuel with
  | zero =>
    intro p h
    rw [splitLoop, concatNonOverlap, List.drop_eq_nil_of_le (by omega)]
  | succ n ih =>
    intro p h
    rw [splitLoop]
    by_cases hp : text.length ≤ p
    · rw [if_pos hp, concatNonOverlap, List.drop_eq_nil_of_le hp]
    · rw [if_neg hp]
      have hple : p < text.length := by omega
      have hps : p < (p - overlap) + targetSize := by omega
      obtain ⟨he1, he2⟩ := chooseBreak_bounds text p (p - overlap) targetSize hple hps
      rw [concatNonOverlap]
      rw [ih (chooseBreak text p (p - overlap) targetSize) (by omega)]
      have hsp : p - overlap ≤ p := by omega
      set s := p - overlap with hs
      set e := chooseBreak text p s targetSize with hedef
      show (((text.drop s).take (e - s)).drop (p - s)) ++ text.drop e = text.drop p
      rw [List.drop_take, List.drop_drop]
      have harith1 : e - s - (p - s) = e - p := by omega
      have harith2 : s + (p - s) = p := by omega
      rw [harith1, harith2]
      have hde : text.drop e = (text.drop p).drop (e - p) := by
        rw [List.drop_drop]
        congr 1
        omega
      rw [hde]
      exact List.take_append_drop (e - p) (text.drop p)

/-- C4: for every input text and every valid configuration
(`overlap < targetSize`), concatenating the non-overlapping regions of the
chunk sequence produced by the Chunk Splitter reconstructs the original
text exactly. -/
theorem split_roundTrip (text : List Char) (targetSize overlap : Nat)
    (hov : overlap < targetSize) :
    concatNonOverlap (split text targetSize overlap) 0 = text := by
  have h := splitLoop_concat text targetSize overlap hov text.length 0 (by omega)
  simpa [split] using h

/-- C4 witness: a concrete two-paragraph text with target size 20 and
overlap 5 splits into overlapping chunks whose non-overlapping regions
concatenate back to the text. -/
theorem split_roundTrip_witness :
    5 < 20
    ∧ concatNonOverlap
        (split "Hello world. This is a test.\n\nSecond paragraph.".toList 20 5) 0 =
      "Hello world. This is a test.\n\nSecond paragraph.".toList :=
  ⟨by omega, split_roundTrip "Hello world. This is a test.\n\nSecond paragraph.".toList 20 5 (by omega)⟩

end ChunkSplitter

namespace HybridSearcher

/-- Rank normalization preserves the candidate ids in order. -/
theorem rankNormalizeAux_map_id (n : Nat) :
    ∀ (i : Nat) (l : List ScoredId),
      (rankNormalizeAux n i l).map ScoredId.id = l.map ScoredId.id := by
  intro i l
  induction l generalizing i with
  | nil => rfl
  | cons c rest ih =>
    simp only [rankNormalizeAux, List.map_cons]
    rw [ih (i + 1)]

/-- Rank normalization preserves the candidate ids in order. -/
theorem rankNormalize_map_id (l : List ScoredId) :
    (rankNormalize l).map ScoredId.id = l.map ScoredId.id :=
  rankNormalizeAux_map_id l.length 0 l

/-- Every normalized candidate's score is `(n - j) / n` for the rank `j` it
occupies. -/
theorem rankNormalizeAux_mem_score (n : Nat) :
    ∀ (l : List ScoredId) (i : Nat) (c : ScoredId), c ∈ rankNormalizeAux n i l →
      ∃ j, i ≤ j ∧ j < i + l.length ∧ c.score = (((n : Rat) - (j : Rat)) / (n : Rat)) := by
  intro l
  induction l with
  | nil =>
    intro i c hc
    simp [rankNormalizeAux] at hc
  | cons hd rest ih =>
    intro i c hc
    simp only [rankNormalizeAux, List.mem_cons] at hc
    rcases hc with hc | hc
    · exact ⟨i, le_refl i, by simp, by rw [hc]⟩
    · obtain ⟨j, hj1, hj2, hj3⟩ := ih (i + 1) c hc
      exact ⟨j, by omega, by simp; omega, hj3⟩

/-- Every rank-normalized score is strictly positive. -/
theorem rankNormalize_pos (l : List ScoredId) :
    ∀ c ∈ rankNormalize l, 0 < c.score := by
  intro c hc
  obtain ⟨j, hj1, hj2, hj3⟩ := rankNormalizeAux_mem_score l.length l 0 c hc
  rw [hj3]
  have hjn : j < l.length := by omega
  have hn : 0 < l.length := by omega
  have h1 : (0 : Rat) < (l.length : Rat) - (j : Rat) := by
    have : (j : Rat) < (l.length : Rat) := by exact_mod_cast hjn
    linarith
  have h2 : (0 : Rat) < (l.length : Rat) := by exact_mod_cast hn
  positivity

/-- Rank-normalized scores are strictly decreasing along the list. -/
theorem rankNormalizeAux_sorted (n : Nat) :
    ∀ (l : List ScoredId) (i : Nat), i + l.length ≤ n →
      List.Pairwise (fun a b => b.score < a.score) (rankNormalizeAux n i l) := by
  intro l
  induction l with
  | nil =>
    intro i _
    simp [rankNormalizeAux]
  | cons hd rest ih =>
    intro i hle
    simp only [rankNormalizeAux, List.pairwise_cons]
    constructor
    · intro b hb
      obtain ⟨j, hj1, hj2, hj3⟩ := rankNormalizeAux_mem_score n rest (i + 1) b hb
      rw [hj3]
      have hn : (0 : Rat) < (n : Rat) := by
        have : 0 < n := by simp at hle; omega
        exact_mod_cast this
      rw [div_lt_div_iff_of_pos_right hn]
      have hij : (i : Rat) < (j : Rat) := by
        have : i < j := by omega
        exact_mod_cast this
      linarith
    · exact ih (i + 1) (by simp at hle ⊢; omega)

/-- The rank-normalized candidate list is sorted for the fused order. -/
theorem rankNormalize_sorted (l : List ScoredId) :
    List.Sorted fusedLe (rankNormalize l) := by
  have h := rankNormalizeAux_sorted l.length l 0 (by omega)
  exact List.Pairwise.imp (fun hab => Or.inl hab) h

/-- An id absent from a candidate set receives score `0`. -/
theorem lookupScore_eq_zero_of_not_mem {i : Nat} {l : List ScoredId}
    (h : i ∉ l.map ScoredId.id) : lookupScore i l = 0 := by
  unfold lookupScore
  cases hf : l.find? (fun c => c.id == i) with
  | none => rfl
  | some e =>
    exfalso
    apply h
    rw [List.mem_map]
    refine ⟨e, List.mem_of_find?_eq_some hf, ?_⟩
    have := List.find?_some hf
    simpa using this

/-- An id present in a candidate set receives the score of one of its
entries for that id. -/
theorem lookupScore_mem {i : Nat} {l : List ScoredId}
    (h : i ∈ l.map ScoredId.id) :
    ∃ e ∈ l, e.id = i ∧ lookupScore i l = e.score := by
  unfold lookupScore
  cases hf : l.find? (fun c => c.id == i) with
  | none =>
    exfalso
    rw [List.find?_eq_none] at hf
    rw [List.mem_map] at h
    obtain ⟨e, he, hei⟩ := h
    exact hf e he (by simpa using hei)
  | some e =>
    have h1 := List.mem_of_find?_eq_some hf
    have h2 := List.find?_some hf
    exact ⟨e, h1, by simpa using h2, rfl⟩

/-- With pairwise-distinct ids, `lookupScore` recovers each entry's score. -/
theorem lookupScore_entry {l : List ScoredId} (hnd : (l.map ScoredId.id).Nodup)
    {e : ScoredId} (he : e ∈ l) : lookupScore e.id l = e.score := by
  have hmem : e.id ∈ l.map ScoredId.id := List.mem_map.mpr ⟨e, he, rfl⟩
  obtain ⟨e2, he2, he2id, he2sc⟩ := lookupScore_mem hmem
  have : e2 = e := List.inj_on_of_nodup_map hnd he2 he he2id
  rw [he2sc, this]

end HybridSearcher

namespace HybridSearcher

/-- The length of a candidate list is unchanged by rank normalization. -/
theorem rankNormalize_length (l : List ScoredId) :
    (rankNormalize l).length = l.length := by
  have h := congrArg List.length (rankNormalize_map_id l)
  simpa using h

/-- Sorting positives-then-zeros: appending an already fused-sorted list of
strictly positive scores with the sorted zeros keeps the whole sorted. -/
theorem sorted_append_of_pos_zero {pos zer : List ScoredId}
    (hpos : List.Sorted fusedLe pos) (hposScore : ∀ c ∈ pos, 0 < c.score)
    (hzer : ∀ c ∈ zer, c.score = 0) :
    List.Sorted fusedLe (pos ++ List.insertionSort fusedLe zer) := by
  rw [List.Sorted, List.pairwise_append]
  refine ⟨hpos, List.sorted_insertionSort fusedLe zer, ?_⟩
  intro a ha b hb
  have hbz : b ∈ zer := (List.perm_insertionSort fusedLe zer).mem_iff.mp hb
  exact Or.inl (by rw [hzer b hbz]; exact hposScore a ha)

/-- Sorting a sorted positive-score list followed by zero-score entries
moves the zeros behind, sorted, and leaves the head list untouched. -/
theorem insertionSort_append_zeros {pos zer : List ScoredId}
    (hpos : List.Sorted fusedLe pos) (hposScore : ∀ c ∈ pos, 0 < c.score)
    (hzer : ∀ c ∈ zer, c.score = 0) :
    List.insertionSort fusedLe (pos ++ zer) = pos ++ List.insertionSort fusedLe zer :=
  List.eq_of_perm_of_sorted
    ((List.perm_insertionSort fusedLe (pos ++ zer)).trans
      (List.Perm.append_left pos (List.perm_insertionSort fusedLe zer).symm))
    (List.sorted_insertionSort fusedLe (pos ++ zer))
    (sorted_append_of_pos_zero hpos hposScore hzer)

/-- Truncating the rank-normalized over-fetched prefix to `k` yields the
same ids as truncating the raw ranking to `k`. -/
theorem take_rankNormalize_map_id (all : List ScoredId) (k K : Nat) (hkK : k ≤ K) :
    ((rankNormalize (all.take K)).take k).map ScoredId.id =
      (all.take k).map ScoredId.id := by
  rw [List.map_take, rankNormalize_map_id, List.map_take, List.take_take,
    Nat.min_eq_left hkK, List.map_take]

/-- With `hybridAlpha = 1` the fused candidates are exactly the normalized
vector candidates followed by zero-score entries for the lexical-only ids. -/
theorem fuseCandidates_one (vN lN : List ScoredId) :
    fuseCandidates 1 vN lN =
      vN ++ (lN.filter (fun c => ! vN.any (fun v => v.id == c.id))).map
        (fun c => ({ id := c.id, score := 0 } : ScoredId)) := by
  show vN.map (fun c =>
      ({ id := c.id, score := 1 * c.score + (1 - 1) * lookupScore c.id lN } : ScoredId))
    ++ (lN.filter (fun c => ! vN.any (fun v => v.id == c.id))).map
        (fun c => ({ id := c.id, score := 1 * 0 + (1 - 1) * c.score } : ScoredId)) = _
  congr 1
  · have h1 : ∀ c ∈ vN,
        ({ id := c.id, score := 1 * c.score + (1 - 1) * lookupScore c.id lN } : ScoredId) =
          id c := by
      intro c _
      show ({ id := c.id, score := 1 * c.score + (1 - 1) * lookupScore c.id lN } : ScoredId) = c
      have h : (1 : Rat) * c.score + (1 - 1) * lookupScore c.id lN = c.score := by ring
      rw [h]
    rw [List.map_congr_left h1, List.map_id]
  · apply List.map_congr_left
    intro c _
    have h : (1 : Rat) * 0 + (1 - 1) * c.score = 0 := by ring
    rw [h]

/-- With `hybridAlpha = 0` the fused candidates are the vector candidates
rescored by lexical lookup followed by the lexical-only candidates with
their own normalized scores. -/
theorem fuseCandidates_zero (vN lN : List ScoredId) :
    fuseCandidates 0 vN lN =
      vN.map (fun c => ({ id := c.id, score := lookupScore c.id lN } : ScoredId))
      ++ lN.filter (fun c => ! vN.any (fun v => v.id == c.id)) := by
  show vN.map (fun c =>
      ({ id := c.id, score := 0 * c.score + (1 - 0) * lookupScore c.id lN } : ScoredId))
    ++ (lN.filter (fun c => ! vN.any (fun v => v.id == c.id))).map
        (fun c => ({ id := c.id, score := 0 * 0 + (1 - 0) * c.score } : ScoredId)) = _
  congr 1
  · apply List.map_congr_left
    intro c _
    have h : (0 : Rat) * c.score + (1 - 0) * lookupScore c.id lN = lookupScore c.id lN := by
      ring
    rw [h]
  · have h1 : ∀ c ∈ lN.filter (fun c => ! vN.any (fun v => v.id == c.id)),
        ({ id := c.id, score := 0 * 0 + (1 - 0) * c.score } : ScoredId) = id c := by
      intro c _
      show ({ id := c.id, score := 0 * 0 + (1 - 0) * c.score } : ScoredId) = c
      have h : (0 : Rat) * 0 + (1 - 0) * c.score = c.score := by ring
      rw [h]
    rw [List.map_congr_left h1, List.map_id]

/-- With `hybridAlpha = 1` the hybrid pipeline reproduces pure vector
search, provided the vector ranking can fill all `k` slots or every lexical
candidate id also occurs among the over-fetched vector candidates. -/
theorem hybridSearch_alpha_one (allVector allLexical : List ScoredId)
    (k overFetch : Nat) (hof : 1 ≤ overFetch)
    (hside : k ≤ allVector.length ∨
      ∀ c ∈ allLexical.take (k * overFetch),
        c.id ∈ (allVector.take (k * overFetch)).map ScoredId.id) :
    hybridSearch allVector allLexical 1 k overFetch = vectorSearch allVector k := by
  have hkK : k ≤ k * overFetch := by
    calc k = k * 1 := (Nat.mul_one k).symm
    _ ≤ k * overFetch := Nat.mul_le_mul_left k hof
  have hzero : ∀ c ∈ ((rankNormalize (allLexical.take (k * overFetch))).filter
      (fun c => ! (rankNormalize (allVector.take (k * overFetch))).any
        (fun v => v.id == c.id))).map (fun c => ({ id := c.id, score := 0 } : ScoredId)),
      c.score = 0 := by
    intro c hc
    rw [List.mem_map] at hc
    obtain ⟨e, _, he⟩ := hc
    rw [← he]
  show ((List.insertionSort fusedLe
      (fuseCandidates 1 (rankNormalize (allVector.take (k * overFetch)))
        (rankNormalize (allLexical.take (k * overFetch))))).take k).map ScoredId.id =
    (allVector.take k).map ScoredId.id
  rw [fuseCandidates_one,
    insertionSort_append_zeros (rankNormalize_sorted _) (rankNormalize_pos _) hzero]
  rcases hside with hk | hsub
  · have hVlen : k ≤ (rankNormalize (allVector.take (k * overFetch))).length := by
      rw [rankNormalize_length, List.length_take]
      omega
    rw [List.take_append_of_le_length hVlen]
    exact take_rankNormalize_map_id allVector k _ hkK
  · have hnil : (rankNormalize (allLexical.take (k * overFetch))).filter
        (fun c => ! (rankNormalize (allVector.take (k * overFetch))).any
          (fun v => v.id == c.id)) = [] := by
      rw [List.filter_eq_nil_iff]
      intro c hc
      have hcid : c.id ∈ (allLexical.take (k * overFetch)).map ScoredId.id := by
        rw [← rankNormalize_map_id]
        exact List.mem_map.mpr ⟨c, hc, rfl⟩
      rw [List.mem_map] at hcid
      obtain ⟨e, he, heid⟩ := hcid
      have hvc := hsub e he
      rw [← rankNormalize_map_id, List.mem_map] at hvc
      obtain ⟨v, hv, hvid⟩ := hvc
      simp only [Bool.not_eq_true', Bool.not_eq_false]
      rw [List.any_eq_true]
      exact ⟨v, hv, by rw [beq_iff_eq]; rw [hvid, heid]⟩
    rw [hnil]
    simp only [List.map_nil]
    rw [show List.insertionSort fusedLe ([] : List ScoredId) = [] from rfl, List.append_nil]
    exact take_rankNormalize_map_id allVector k _ hkK

end HybridSearcher

namespace HybridSearcher

/-- Rebuilding a scored candidate from its own fields is the identity. -/
theorem ScoredId.eta_mk (c : ScoredId) :
    ({ id := c.id, score := c.score } : ScoredId) = c := rfl

/-- With `hybridAlpha = 0` the hybrid pipeline reproduces pure lexical
search, provided the candidate rankings carry pairwise-distinct ids and the
lexical ranking can fill all `k` slots or every vector candidate id also
occurs among the over-fetched lexical candidates. -/
theorem hybridSearch_alpha_zero (allVector allLexical : List ScoredId)
    (k overFetch : Nat) (hof : 1 ≤ overFetch)
    (hvn : (allVector.map ScoredId.id).Nodup)
    (hln : (allLexical.map ScoredId.id).Nodup)
    (hside : k ≤ allLexical.length ∨
      ∀ c ∈ allVector.take (k * overFetch),
        c.id ∈ (allLexical.take (k * overFetch)).map ScoredId.id) :
    hybridSearch allVector allLexical 0 k overFetch = ftsSearch allLexical k := by
  have hkK : k ≤ k * overFetch := by
    calc k = k * 1 := (Nat.mul_one k).symm
    _ ≤ k * overFetch := Nat.mul_le_mul_left k hof
  show ((List.insertionSort fusedLe
      (fuseCandidates 0 (rankNormalize (allVector.take (k * overFetch)))
        (rankNormalize (allLexical.take (k * overFetch))))).take k).map ScoredId.id =
    (allLexical.take k).map ScoredId.id
  set V := rankNormalize (allVector.take (k * overFetch)) with hV
  set L := rankNormalize (allLexical.take (k * overFetch)) with hL
  rw [fuseCandidates_zero]
  set f : ScoredId → ScoredId :=
    fun c => { id := c.id, score := lookupScore c.id L } with hf
  set inL : ScoredId → Bool := fun c => L.any (fun e => e.id == c.id) with hinL
  set q : ScoredId → Bool := fun c => ! V.any (fun v => v.id == c.id) with hq
  set A := (V.filter inL).map f with hA
  set B := (V.filter (fun c => ! inL c)).map f with hB
  set C := L.filter q with hC
  have hfid : ∀ c : ScoredId, (f c).id = c.id := by
    intro c
    rw [hf]
  have hVids : (V.map ScoredId.id).Nodup := by
    rw [hV, rankNormalize_map_id]
    exact List.Nodup.sublist (List.Sublist.map _ (List.take_sublist _ _)) hvn
  have hLids : (L.map ScoredId.id).Nodup := by
    rw [hL, rankNormalize_map_id]
    exact List.Nodup.sublist (List.Sublist.map _ (List.take_sublist _ _)) hln
  have hLnd : L.Nodup := List.Nodup.of_map ScoredId.id hLids
  have hpartition : List.Perm (V.map f) (A ++ B) := by
    have h := List.filter_append_perm inL V
    have h2 := h.map f
    rw [List.map_append] at h2
    exact h2.symm
  have hB0 : ∀ b ∈ B, b.score = 0 := by
    intro b hb
    rw [hB, List.mem_map] at hb
    obtain ⟨c, hc, hbc⟩ := hb
    rw [List.mem_filter] at hc
    have hany : inL c = false := by
      rcases hc with ⟨-, hqc⟩
      simpa using hqc
    have hnot : c.id ∉ L.map ScoredId.id := by
      intro hmem
      rw [List.mem_map] at hmem
      obtain ⟨e, he, heid⟩ := hmem
      rw [hinL, List.any_eq_false] at hany
      exact hany e he (by simpa using heid)
    rw [← hbc, hf]
    exact lookupScore_eq_zero_of_not_mem hnot
  have hP : List.Perm (A ++ C) L := by
    have hnd1 : (A ++ C).Nodup := by
      rw [List.nodup_append]
      refine ⟨?_, ?_, ?_⟩
      · apply List.Nodup.of_map ScoredId.id
        rw [hA, List.map_map]
        have : (ScoredId.id ∘ f) = ScoredId.id := by
          funext c
          exact hfid c
        rw [this]
        exact List.Nodup.sublist (List.Sublist.map _ (List.filter_sublist V)) hVids
      · rw [hC]
        exact List.Nodup.sublist (List.filter_sublist L) hLnd
      · intro x hxA hxC
        rw [hA, List.mem_map] at hxA
        obtain ⟨c, hc, hxc⟩ := hxA
        rw [List.mem_filter] at hc
        rw [hC, List.mem_filter] at hxC
        rcases hxC with ⟨-, hqx⟩
        have hnoV : V.any (fun v => v.id == x.id) = false := by
          rw [hq] at hqx
          simpa using hqx
        rw [List.any_eq_false] at hnoV
        apply hnoV c hc.1
        rw [beq_iff_eq, ← hxc]
    have hmemiff : ∀ x, x ∈ A ++ C ↔ x ∈ L := by
      intro x
      rw [List.mem_append]
      constructor
      · intro hx
        rcases hx with hx | hx
        · rw [hA, List.mem_map] at hx
          obtain ⟨c, hc, hxc⟩ := hx
          rw [List.mem_filter] at hc
          rcases hc with ⟨-, hanyc⟩
          rw [hinL, List.any_eq_true] at hanyc
          obtain ⟨e, he, heid⟩ := hanyc
          have heid2 : e.id = c.id := by simpa using heid
          have hcid : c.id ∈ L.map ScoredId.id := List.mem_map.mpr ⟨e, he, heid2⟩
          obtain ⟨e0, he0, he0id, he0sc⟩ := lookupScore_mem hcid
          rw [← hxc, hf]
          show ({ id := c.id, score := lookupScore c.id L } : ScoredId) ∈ L
          rw [he0sc, ← he0id, ScoredId.eta_mk]
          exact he0
        · rw [hC, List.mem_filter] at hx
          exact hx.1
      · intro hxL
        by_cases hin : V.any (fun v => v.id == x.id) = true
        · left
          rw [List.any_eq_true] at hin
          obtain ⟨v, hv, hvid⟩ := hin
          have hvid2 : v.id = x.id := by simpa using hvid
          rw [hA, List.mem_map]
          refine ⟨v, List.mem_filter.mpr ⟨hv, ?_⟩, ?_⟩
          · rw [hinL, List.any_eq_true]
            exact ⟨x, hxL, by rw [beq_iff_eq, hvid2]⟩
          · rw [hf]
            show ({ id := v.id, score := lookupScore v.id L } : ScoredId) = x
            rw [hvid2, lookupScore_entry hLids hxL, ScoredId.eta_mk]
        · right
          rw [hC, List.mem_filter]
          refine ⟨hxL, ?_⟩
          have hfalse : (V.any fun v => v.id == x.id) = false := by
            cases hvb : V.any fun v => v.id == x.id
            · rfl
            · exact absurd hvb hin
          rw [hq]
          show (! (V.any fun v => v.id == x.id)) = true
          rw [hfalse]
          rfl
    exact List.perm_of_nodup_nodup_toFinset_eq hnd1 hLnd (List.toFinset.ext hmemiff)
  have hfull : List.Perm (V.map f ++ C) (L ++ B) := by
    refine (List.Perm.append_right C hpartition).trans ?_
    rw [List.append_assoc]
    refine (List.Perm.append_left A List.perm_append_comm).trans ?_
    rw [← List.append_assoc]
    exact List.Perm.append_right B hP
  have hsort_eq : List.insertionSort fusedLe (V.map f ++ C) =
      L ++ List.insertionSort fusedLe B := by
    apply List.eq_of_perm_of_sorted
      ((List.perm_insertionSort fusedLe _).trans
        (hfull.trans (List.Perm.append_left L (List.perm_insertionSort fusedLe B).symm)))
      (List.sorted_insertionSort fusedLe _)
    exact sorted_append_of_pos_zero (by rw [hL]; exact rankNormalize_sorted _)
      (by rw [hL]; exact rankNormalize_pos _) hB0
  rw [hsort_eq]
  rcases hside with hk | hsub
  · have hLlen : k ≤ L.length := by
      rw [hL, rankNormalize_length, List.length_take]
      omega
    rw [List.take_append_of_le_length hLlen, hL]
    exact take_rankNormalize_map_id allLexical k _ hkK
  · have hnil : V.filter (fun c => ! inL c) = [] := by
      rw [List.filter_eq_nil_iff]
      intro c hc
      have hcid : c.id ∈ (allVector.take (k * overFetch)).map ScoredId.id := by
        rw [← rankNormalize_map_id, ← hV]
        exact List.mem_map.mpr ⟨c, hc, rfl⟩
      rw [List.mem_map] at hcid
      obtain ⟨e, he, heid⟩ := hcid
      have hlc := hsub e he
      rw [← rankNormalize_map_id, ← hL, List.mem_map] at hlc
      obtain ⟨w, hw, hwid⟩ := hlc
      rw [hinL]
      simp only [Bool.not_eq_true', Bool.not_eq_false]
      rw [List.any_eq_true]
      exact ⟨w, hw, by rw [beq_iff_eq, hwid, heid]⟩
    rw [hB, hnil]
    simp only [List.map_nil]
    rw [show List.insertionSort fusedLe ([] : List ScoredId) = [] from rfl, List.append_nil, hL]
    exact take_rankNormalize_map_id allLexical k _ hkK

end HybridSearcher

namespace HybridSearcher

/-- C1 counterexample: with one vector candidate, no lexical candidates,
`hybridAlpha = 0` and `k = 1`, the hybrid pipeline returns the zero-scored
vector-only chunk while pure `ftsSearch` returns nothing — the orderings
are not identical, refuting the claim as stated. -/
theorem hybridSearch_alpha_extremes_counterexample :
    hybridSearch [{ id := 0, score := 1 }] [] 0 1 1 = [0]
    ∧ ftsSearch [] 1 = []
    ∧ hybridSearch [{ id := 0, score := 1 }] [] 0 1 1 ≠ ftsSearch [] 1 := by
  refine ⟨by decide, rfl, by decide⟩

/-- C1 (amended): for candidate rankings keyed by pairwise-distinct ids and
`overFetch ≥ 1`, `hybridAlpha = 1` reproduces pure vector-search order
provided the vector ranking can fill all `k` slots or every lexical
candidate id occurs among the over-fetched vector candidates, and
symmetrically `hybridAlpha = 0` reproduces pure lexical-search order under
the mirrored proviso. -/
theorem hybridSearch_alpha_extremes (allVector allLexical : List ScoredId)
    (k overFetch : Nat) (hof : 1 ≤ overFetch)
    (hvn : (allVector.map ScoredId.id).Nodup)
    (hln : (allLexical.map ScoredId.id).Nodup) :
    ((k ≤ allVector.length ∨
        ∀ c ∈ allLexical.take (k * overFetch),
          c.id ∈ (allVector.take (k * overFetch)).map ScoredId.id) →
      hybridSearch allVector allLexical 1 k overFetch = vectorSearch allVector k)
    ∧ ((k ≤ allLexical.length ∨
        ∀ c ∈ allVector.take (k * overFetch),
          c.id ∈ (allLexical.take (k * overFetch)).map ScoredId.id) →
      hybridSearch allVector allLexical 0 k overFetch = ftsSearch allLexical k) :=
  ⟨fun hside => hybridSearch_alpha_one allVector allLexical k overFetch hof hside,
   fun hside => hybridSearch_alpha_zero allVector allLexical k overFetch hof hvn hln hside⟩

/-- C1 witness: a three-candidate vector ranking and a two-candidate
lexical ranking with `k = 2` and `overFetch = 2` — both provisos hold, and
both extreme alphas reproduce the corresponding pure search exactly. -/
theorem hybridSearch_alpha_extremes_witness :
    hybridSearch
      [ { id := 1, score := (9 : Rat) / 10 }
      , { id := 2, score := (5 : Rat) / 10 }
      , { id := 3, score := (1 : Rat) / 10 } ]
      [ { id := 2, score := 3 }, { id := 7, score := 2 } ] 1 2 2 =
      vectorSearch
        [ { id := 1, score := (9 : Rat) / 10 }
        , { id := 2, score := (5 : Rat) / 10 }
        , { id := 3, score := (1 : Rat) / 10 } ] 2
    ∧ hybridSearch
      [ { id := 1, score := (9 : Rat) / 10 }
      , { id := 2, score := (5 : Rat) / 10 }
      , { id := 3, score := (1 : Rat) / 10 } ]
      [ { id := 2, score := 3 }, { id := 7, score := 2 } ] 0 2 2 =
      ftsSearch [ { id := 2, score := 3 }, { id := 7, score := 2 } ] 2 :=
  ⟨(hybridSearch_alpha_extremes
      [ { id := 1, score := (9 : Rat) / 10 }
      , { id := 2, score := (5 : Rat) / 10 }
      , { id := 3, score := (1 : Rat) / 10 } ]
      [ { id := 2, score := 3 }, { id := 7, score := 2 } ] 2 2
      (by decide) (by decide) (by decide)).1 (Or.inl (by decide)),
   (hybridSearch_alpha_extremes
      [ { id := 1, score := (9 : Rat) / 10 }
      , { id := 2, score := (5 : Rat) / 10 }
      , { id := 3, score := (1 : Rat) / 10 } ]
      [ { id := 2, score := 3 }, { id := 7, score := 2 } ] 2 2
      (by decide) (by decide) (by decide)).2 (Or.inl (by decide))⟩

end HybridSearcher
